import Mathlib

/-
Verification of the Notion-backed photo gallery.

This file embeds, in Lean, the parts of the program that the verified
properties talk about:

* the client-side gallery view-model (js/photoGallery.js):
  filterAndSortPhotos, selection handling;
* the client-side upload queue manager (UploadManager):
  processQueue, handleUploadComplete, the concurrency counter;
* the client-side memories timeline (MemoriesTimeline):
  getMostCommonCategory, selectRepresentativePhotos;
* the Express server (server.js): the /api/register, /api/photos/:id
  (DELETE) and /api/images/:imageKey handlers, with the Notion
  database modelled as an in-memory list of records and the blob
  cache (imageStore) as an association list.

JavaScript numbers that hold integral timestamps and byte sizes are
modelled as Int.  JS Array.prototype.sort is stable (ES2019), so sorts
are modelled by a stable insertion sort parameterised by the JS
comparator (an Int-valued function; negative means "first argument
first").  JS objects used as string-keyed counters are modelled as
association lists in insertion (first-encounter) order, with
Object.entries enumeration applied on top of that: array-index-like
keys (canonical numeric strings below 2^32 - 1) are listed first in
ascending numeric order, the remaining keys in insertion order.
-/

namespace PhotoApp

/-! ### Stable sort by a JS comparator -/

/-- Insert x in front of the first element y with cmp x y ≤ 0.  Since a
JS stable sort keeps an earlier element before a later one when the
comparator returns 0, inserting the earlier element x before the first
y with cmp x y ≤ 0 reproduces that order. -/
def insertCmp (cmp : α → α → Int) (x : α) : List α → List α
  | [] => [x]
  | y :: ys => if cmp x y ≤ 0 then x :: y :: ys else y :: insertCmp cmp x ys

/-- Stable sort by a JS comparator, as performed by Array.prototype.sort. -/
def sortCmp (cmp : α → α → Int) : List α → List α
  | [] => []
  | x :: xs => insertCmp cmp x (sortCmp cmp xs)

/-! ### Strings, as the JS code uses them -/

/-- JS String.prototype.toLowerCase (restricted to the ASCII case
mapping, which covers the file names and category names involved). -/
def jsToLower (s : String) : String := s.toLower

/-- q occurs as a contiguous run somewhere in the character list. -/
def infixAux (q : List Char) : List Char → Bool
  | [] => q.isEmpty
  | c :: rest => q.isPrefixOf (c :: rest) || infixAux q rest

/-- JS String.prototype.includes: q occurs as a contiguous substring. -/
def jsIncludes (s q : String) : Bool := infixAux q.data s.data

/-- Comparator value of a JS localeCompare-style string comparison,
modelled as code-point order. -/
def strCmp (a b : String) : Int :=
  match compare a b with
  | Ordering.lt => -1
  | Ordering.eq => 0
  | Ordering.gt => 1

/-! ### The Photo record (shape produced by GET /api/photos) -/

structure Photo where
  id : String
  originalName : String
  category : String
  tags : List String
  /-- upload timestamp in milliseconds (value of the JS Date) -/
  uploadDate : Int
  /-- byte size -/
  size : Int
deriving DecidableEq, Repr

def dummyPhoto : Photo := ⟨"", "", "", [], 0, 0⟩

/-! ### Gallery view-model (js/photoGallery.js) -/

/-- The date filter select.  'today' / 'week' / 'month' / 'year' each
compute a cutoff timestamp from the wall clock and keep photos with
uploadDate >= cutoff; the computed cutoff is carried in the
constructor.  'all' applies no date filter. -/
inductive DateFilter where
  | all
  | since (cutoff : Int)
deriving DecidableEq, Repr

/-- The fields of PhotoGallery that filtering and selection touch.
selectedPhotos models the JS Set of photo ids. -/
structure GalleryState where
  photos : List Photo
  filteredPhotos : List Photo
  selectedPhotos : List String
  currentSort : String
  currentFilter : DateFilter
  currentCategory : String
  searchQuery : String
deriving Repr

/-- The search predicate inside filterAndSortPhotos (query is already
lower-cased by the caller).  photo.tags is always an array (truthy);
photo.category is guarded by the && so an empty category never
matches. -/
def matchesSearch (query : String) (p : Photo) : Bool :=
  jsIncludes (jsToLower p.originalName) query ||
  p.tags.any (fun tag => jsIncludes (jsToLower tag) query) ||
  (!(p.category == "") && jsIncludes (jsToLower p.category) query)

/-- The sort comparator switch in filterAndSortPhotos; the default
branch returns 0, amounting to no reordering under a stable sort. -/
def cmpPhotos (sort : String) (a b : Photo) : Int :=
  match sort with
  | "date-desc" => b.uploadDate - a.uploadDate
  | "date-asc" => a.uploadDate - b.uploadDate
  | "name-asc" => strCmp a.originalName b.originalName
  | "name-desc" => strCmp b.originalName a.originalName
  | "size-desc" => b.size - a.size
  | "size-asc" => a.size - b.size
  | _ => 0

/-- The derived list filterAndSortPhotos computes from the authoritative
list: search filter, then category filter, then date filter, then
sort, all on a copy ([...this.photos]). -/
def computeFiltered (g : GalleryState) : List Photo :=
  let f1 :=
    if g.searchQuery ≠ "" then
      g.photos.filter (matchesSearch (jsToLower g.searchQuery))
    else g.photos
  let f2 :=
    if g.currentCategory ≠ "" ∧ g.currentCategory ≠ "all" then
      f1.filter (fun p => p.category == g.currentCategory)
    else f1
  let f3 :=
    match g.currentFilter with
    | DateFilter.all => f2
    | DateFilter.since cutoff => f2.filter (fun p => cutoff ≤ p.uploadDate)
  sortCmp (cmpPhotos g.currentSort) f3

/-- PhotoGallery.filterAndSortPhotos: recompute filteredPhotos, leaving
every other field (in particular photos and selectedPhotos) alone. -/
def filterAndSortPhotos (g : GalleryState) : GalleryState :=
  { g with filteredPhotos := computeFiltered g }

/-- The category-select change handler: store the category, re-filter. -/
def setCategoryFilter (g : GalleryState) (c : String) : GalleryState :=
  filterAndSortPhotos { g with currentCategory := c }

/-- The search-input handler: store the query, re-filter. -/
def setSearchQuery (g : GalleryState) (q : String) : GalleryState :=
  filterAndSortPhotos { g with searchQuery := q }

/-- The filter-select change handler: store the date filter, re-filter. -/
def setDateFilter (g : GalleryState) (f : DateFilter) : GalleryState :=
  filterAndSortPhotos { g with currentFilter := f }

/-- The sort-select change handler: store the sort key, re-filter. -/
def setSort (g : GalleryState) (s : String) : GalleryState :=
  filterAndSortPhotos { g with currentSort := s }

/-- PhotoGallery.togglePhotoSelection on the selection set. -/
def togglePhotoSelection (g : GalleryState) (photoId : String) : GalleryState :=
  if g.selectedPhotos.contains photoId then
    { g with selectedPhotos := g.selectedPhotos.erase photoId }
  else
    { g with selectedPhotos := g.selectedPhotos ++ [photoId] }

/-! ### Upload queue manager (UploadManager)

The uploads themselves are network operations; what the verified
properties concern is the queue/counter discipline, which we model as a
state machine.  queue holds the pending items (this.queue after
admission), inflight holds the items whose uploadFile call is running
(the source tracks only their number, activeUploads; the list itself is
ghost state used to express the properties).  -/

inductive UStatus where
  | pending
  | uploading
  | completed
  | failed
deriving DecidableEq, Repr

structure UploadItem where
  id : Nat
  status : UStatus
deriving DecidableEq, Repr

structure UMState where
  queue : List UploadItem
  inflight : List UploadItem
  activeUploads : Nat
  maxConcurrentUploads : Nat
  totalFiles : Nat
  completedFiles : Nat
  failedFiles : Nat
deriving DecidableEq, Repr

/-- The manager as constructed: all counters zero, cap 3. -/
def initUM : UMState :=
  { queue := [], inflight := [], activeUploads := 0, maxConcurrentUploads := 3,
    totalFiles := 0, completedFiles := 0, failedFiles := 0 }

/-- The while loop of processQueue: shift items off the front of the
queue and start uploading them (uploadFile sets status 'uploading'
synchronously) while the queue is non-empty and activeUploads is below
the cap.  Returns (remaining queue, admitted items, new activeUploads). -/
def admitLoop (maxC : Nat) : List UploadItem → Nat → List UploadItem × List UploadItem × Nat
  | [], active => ([], [], active)
  | item :: rest, active =>
    if active < maxC then
      let r := admitLoop maxC rest (active + 1)
      (r.1, { item with status := UStatus.uploading } :: r.2.1, r.2.2)
    else (item :: rest, [], active)

/-- UploadManager.processQueue. -/
def processQueue (s : UMState) : UMState :=
  let r := admitLoop s.maxConcurrentUploads s.queue s.activeUploads
  { s with queue := r.1, inflight := s.inflight ++ r.2.1, activeUploads := r.2.2 }

/-- The first half of handleUploadComplete: decrement activeUploads and
bump the completed or failed counter for the item whose upload just
finished. -/
def applyCompletion (s : UMState) (item : UploadItem) (success : Bool) : UMState :=
  { s with
    activeUploads := s.activeUploads - 1,
    inflight := s.inflight.erase item,
    completedFiles := if success then s.completedFiles + 1 else s.completedFiles,
    failedFiles := if success then s.failedFiles else s.failedFiles + 1 }

/-- The batch-level events the manager can emit. -/
inductive UMEvent where
  | allComplete (total completed failed : Nat)
deriving DecidableEq, Repr

/-- UploadManager.reset: clear the queue and zero the counters (the
cap is untouched).  It runs only right after the allComplete event. -/
def resetUM (s : UMState) : UMState :=
  { s with
    queue := [], inflight := [], activeUploads := 0,
    totalFiles := 0, completedFiles := 0, failedFiles := 0 }

/-- UploadManager.handleUploadComplete: account for the finished item,
continue processing the queue, and fire allComplete (then reset) when
completedFiles + failedFiles has reached totalFiles. -/
def handleUploadComplete (s : UMState) (item : UploadItem) (success : Bool) :
    UMState × Option UMEvent :=
  let s2 := processQueue (applyCompletion s item success)
  if s2.completedFiles + s2.failedFiles = s2.totalFiles then
    (resetUM s2, some (UMEvent.allComplete s2.totalFiles s2.completedFiles s2.failedFiles))
  else (s2, none)

/-- UploadManager.addFiles: append the files that pass validation to
the queue as pending items and grow totalFiles accordingly (invalid
files only produce a toast). -/
def addFiles (s : UMState) (files : List UploadItem) (valid : UploadItem → Bool) : UMState :=
  let validFiles := (files.filter valid).map (fun f => { f with status := UStatus.pending })
  { s with queue := s.queue ++ validFiles, totalFiles := s.totalFiles + validFiles.length }

/-- UploadManager.startUpload: a no-op on an empty queue, otherwise
processQueue. -/
def startUpload (s : UMState) : UMState :=
  if s.queue.isEmpty then s else processQueue s

/-- The states an upload manager can actually be in: the initial state,
closed under adding files, starting the upload, and completion (success
or failure) of an in-flight item. -/
inductive ReachableUM : UMState → Prop where
  | init : ReachableUM initUM
  | add {s} (files : List UploadItem) (valid : UploadItem → Bool) :
      ReachableUM s → ReachableUM (addFiles s files valid)
  | start {s} : ReachableUM s → ReachableUM (startUpload s)
  | complete {s} (item : UploadItem) (success : Bool) :
      ReachableUM s → item ∈ s.inflight →
      ReachableUM (handleUploadComplete s item success).1

/-- The bookkeeping invariant of the manager: the cap is the configured
3, activeUploads counts exactly the in-flight items, it never exceeds
the cap, and every accepted file is pending, in flight, or terminal. -/
def InvUM (s : UMState) : Prop :=
  s.maxConcurrentUploads = 3 ∧
  s.activeUploads = s.inflight.length ∧
  s.activeUploads ≤ 3 ∧
  s.totalFiles = s.queue.length + s.inflight.length + s.completedFiles + s.failedFiles

/-! ### Memories timeline (MemoriesTimeline) -/

/-- The per-photo counting loop of getMostCommonCategory:
categoryCounts[photo.category] = (categoryCounts[photo.category] || 0) + 1
on an object whose entries stay in first-encounter order. -/
def bump (k : String) : List (String × Nat) → List (String × Nat)
  | [] => [(k, 1)]
  | (k', v) :: rest => if k' = k then (k', v + 1) :: rest else (k', v) :: bump k rest

/-- The contents of the categoryCounts object built by
getMostCommonCategory, as an association list in insertion
(first-encounter) key order.  The Object.entries enumeration order is
applied separately by jsEntries below. -/
def categoryCounts (photos : List Photo) : List (String × Nat) :=
  photos.foldl (fun acc p => bump p.category acc) []

/-- Numeric value of a decimal digit string. -/
def digitsVal (cs : List Char) : Nat :=
  cs.foldl (fun acc c => acc * 10 + (c.toNat - 48)) 0

/-- Whether a JS object property key is an array index: the canonical
decimal numeral (no leading zero except "0" itself) of an integer
below 2^32 - 1.  Such keys are enumerated before all other string
keys. -/
def isArrayIndex (s : String) : Bool :=
  match s.data with
  | [] => false
  | c :: cs =>
    (c :: cs).all Char.isDigit && (c != '0' || cs.isEmpty) &&
      decide (digitsVal (c :: cs) < 4294967295)

/-- Object.entries enumeration order on a string-keyed object:
array-index-like keys first, in ascending numeric order, then the
remaining keys in insertion order. -/
def jsEntries (assoc : List (String × Nat)) : List (String × Nat) :=
  sortCmp (fun x y => (digitsVal x.1.data : Int) - (digitsVal y.1.data : Int))
      (assoc.filter (fun e => isArrayIndex e.1)) ++
    assoc.filter (fun e => !(isArrayIndex e.1))

/-- The comparator ([,a],[,b]) => b - a used on the entries. -/
def countCmp (x y : String × Nat) : Int := (y.2 : Int) - (x.2 : Int)

/-- MemoriesTimeline.getMostCommonCategory: stable-sort the
Object.entries list by descending count and take the first key.  The
final || 'other' covers both the empty list and a falsy (empty-string)
winning key. -/
def getMostCommonCategory (photos : List Photo) : String :=
  match sortCmp countCmp (jsEntries (categoryCounts photos)) with
  | [] => "other"
  | (k, _) :: _ => if k = "" then "other" else k

/-- Number of photos of the group that carry category k. -/
def countCat (photos : List Photo) (k : String) : Nat :=
  (photos.filter (fun p => p.category = k)).length

/-- Value stored under key k in an association list (first binding). -/
def findVal (l : List (String × Nat)) (k : String) : Option Nat :=
  match l with
  | [] => none
  | (k', v) :: rest => if k' = k then some v else findVal rest k

/-- The keys a counting object accumulates over a photo list, in
first-encounter order, starting from the keys ks. -/
def occKeys (photos : List Photo) (ks : List String) : List String :=
  photos.foldl (fun ks p => if p.category ∈ ks then ks else ks ++ [p.category]) ks

/-- The distinct categories of a photo list in first-encounter order
(the key order of the categoryCounts object). -/
def firstOccs (photos : List Photo) : List String := occKeys photos []

/-- The ascending upload-date comparator (a, b) => dateA - dateB. -/
def dateAscCmp (a b : Photo) : Int := a.uploadDate - b.uploadDate

/-- MemoriesTimeline.selectRepresentativePhotos. -/
def selectRepresentativePhotos (photos : List Photo) : List Photo :=
  if photos.length ≤ 4 then photos
  else
    let sorted := sortCmp dateAscCmp photos
    let step := photos.length / 4
    (List.range 4).map (fun i => sorted.getD (min (i * step) (sorted.length - 1)) dummyPhoto)

/-! ### Server (server.js)

The Notion store is external; its per-record operations (query by
filter, create, retrieve, update/archive) are modelled on in-memory
lists of records, which is the data model the handlers program
against.  The blob cache imageStore (a Map from generated key to data
URL) is an association list.  An authenticated session is
Option String: some userId / none. -/

/-- A row of the Users database, as /api/register creates it. -/
structure UserRec where
  id : String
  username : String
  email : String
  passwordHash : String
  fullName : String
deriving DecidableEq, Repr

/-- Body of POST /api/register; a missing field is the empty string
(both are falsy in the handler's check). -/
structure RegisterReq where
  username : String
  email : String
  password : String
  fullName : String
deriving DecidableEq, Repr

/-- The /api/register handler: 400 when a required field is falsy, 400
when the Users database already holds the username or the email,
otherwise create the user (bcrypt is abstracted by hash) and answer
200.  Returns (HTTP status, users store afterwards). -/
def register (store : List UserRec) (req : RegisterReq)
    (hash : String → String) (newId : String) : Nat × List UserRec :=
  if req.username = "" ∨ req.email = "" ∨ req.password = "" then
    (400, store)
  else if store.any (fun u => u.username = req.username ∨ u.email = req.email) then
    (400, store)
  else
    (200, store ++ [{ id := newId, username := req.username, email := req.email,
                      passwordHash := hash req.password,
                      fullName := if req.fullName = "" then req.username else req.fullName }])

/-- A page of the Photos database (the properties the delete and image
paths read). -/
structure NotionPage where
  id : String
  archived : Bool
  imageKey : String
deriving DecidableEq, Repr

/-- The server's mutable state relevant here: the Photos database and
the in-memory imageStore Map keyed by generated image keys. -/
structure ServerState where
  pages : List NotionPage
  imageStore : List (String × String)
deriving DecidableEq, Repr

/-- Map.prototype.get. -/
def storeGet (store : List (String × String)) (k : String) : Option String :=
  (store.find? (fun e => e.1 == k)).map (fun e => e.2)

/-- Map.prototype.has. -/
def storeHas (store : List (String × String)) (k : String) : Bool :=
  store.any (fun e => e.1 == k)

/-- Map.prototype.delete. -/
def storeDelete (store : List (String × String)) (k : String) : List (String × String) :=
  store.filter (fun e => !(e.1 == k))

/-- Characters the mime-type group [A-Za-z-+\/]+ accepts. -/
def isMimeChar (c : Char) : Bool :=
  (('A' ≤ c && c ≤ 'Z') || ('a' ≤ c && c ≤ 'z')) || c == '-' || c == '+' || c == '/'

/-- The regex ^data:([A-Za-z-+\/]+);base64,(.+)$ applied to the cached
payload: returns (mime type, base64 text) on a match.  (Cached data
URLs are single-line, so (.+)$ is the non-empty remainder.) -/
def parseDataUrl (s : String) : Option (String × String) :=
  let cs := s.data
  if cs.take 5 = "data:".data then
    let rest := cs.drop 5
    let mime := rest.takeWhile isMimeChar
    let after := rest.drop mime.length
    if mime ≠ [] ∧ after.take 8 = ";base64,".data ∧ after.drop 8 ≠ [] then
      some (String.mk mime, String.mk (after.drop 8))
    else none
  else none

/-- The GET /api/images/:imageKey handler.  The route is registered
without the requireAuth middleware, so the session is not consulted:
404 when the key is not in the imageStore, 400 when the cached payload
is not a data URL, otherwise 200 with (mime type, base64 payload). -/
def apiImages (s : ServerState) (session : Option String) (imageKey : String) :
    Nat × Option (String × String) :=
  match storeGet s.imageStore imageKey with
  | none => (404, none)
  | some imageData =>
    match parseDataUrl imageData with
    | none => (400, none)
    | some m => (200, some m)

/-- The retrieve-then-archive block of the DELETE handler: archive the
page if it exists and is not archived yet; a failing retrieve (unknown
id) is caught and swallowed. -/
def archivePage (pages : List NotionPage) (id : String) : List NotionPage :=
  match pages.find? (fun p => p.id == id) with
  | some page =>
    if !page.archived then
      pages.map (fun p => if p.id == id then { p with archived := true } else p)
    else pages
  | none => pages

/-- The DELETE /api/photos/:id handler (behind requireAuth): archive
the page when possible, then delete the imageStore entry stored under
the request's :id — note the source keys this lookup by the Notion
page id, not by the page's ImageKey property — and answer
{success: true}.  Returns ((status, success flag), new state). -/
def apiDeletePhoto (s : ServerState) (session : Option String) (id : String) :
    (Nat × Bool) × ServerState :=
  match session with
  | none => ((401, false), s)
  | some _ =>
    let pages2 := archivePage s.pages id
    let store2 := if storeHas s.imageStore id then storeDelete s.imageStore id else s.imageStore
    ((200, true), { pages := pages2, imageStore := store2 })

/-! ### Concrete inputs used by witnesses and counterexamples -/

def gPhoto1 : Photo :=
  { id := "p1", originalName := "beach.jpg", category := "travel", tags := [],
    uploadDate := 100, size := 10 }

def gPhoto2 : Photo :=
  { id := "p2", originalName := "dog.jpg", category := "pets", tags := [],
    uploadDate := 200, size := 20 }

/-- A gallery showing all photos, freshly rendered (filteredPhotos in
sync with the authoritative list). -/
def g0 : GalleryState :=
  filterAndSortPhotos
    { photos := [gPhoto1, gPhoto2], filteredPhotos := [], selectedPhotos := [],
      currentSort := "date-desc", currentFilter := DateFilter.all,
      currentCategory := "all", searchQuery := "" }

/-- One file handed to the upload manager, then the upload started. -/
def um1 : UMState :=
  startUpload (addFiles initUM [{ id := 1, status := UStatus.pending }] (fun _ => true))

/-- A timeline photo with the given id and upload timestamp. -/
def tPhoto (name : String) (date : Int) : Photo :=
  { id := name, originalName := name, category := "travel", tags := [],
    uploadDate := date, size := 0 }

/-- A day group of 5 photos in chronological order. -/
def exGroup5 : List Photo :=
  [tPhoto "a" 1, tPhoto "b" 2, tPhoto "c" 3, tPhoto "d" 4, tPhoto "e" 5]

/-- A day group of 6 photos in chronological order. -/
def exGroup6 : List Photo :=
  [tPhoto "a" 1, tPhoto "b" 2, tPhoto "c" 3, tPhoto "d" 4, tPhoto "e" 5, tPhoto "f" 6]

/-- A timeline photo with the given category. -/
def cPhoto (name cat : String) : Photo :=
  { id := name, originalName := name, category := cat, tags := [],
    uploadDate := 0, size := 0 }

/-- A group with a tie: 2 travel photos and 2 pets photos, travel
encountered first. -/
def tieGroup : List Photo :=
  [cPhoto "a" "travel", cPhoto "b" "pets", cPhoto "c" "pets", cPhoto "d" "travel"]

/-- A group with a tie between the first-encountered category "travel"
and the array-index-like custom category "2024". -/
def numTieGroup : List Photo :=
  [cPhoto "a" "travel", cPhoto "b" "2024", cPhoto "c" "2024", cPhoto "d" "travel"]

/-- Server state holding one photo record whose blob is cached under
its image key. -/
def bugState : ServerState :=
  { pages := [{ id := "page-1", archived := false, imageKey := "photo-0-key" }],
    imageStore := [("photo-0-key", "data:image/png;base64,AAAA")] }

/-- Users store already holding a user named alice. -/
def usersWithAlice : List UserRec :=
  [{ id := "u1", username := "alice", email := "alice@example.com",
     passwordHash := "h", fullName := "Alice" }]

/-- A registration request for the taken username alice. -/
def aliceReq : RegisterReq :=
  { username := "alice", email := "new@example.com", password := "pw", fullName := "A" }

/-! ## Theorems -/

/-! ### Generic facts about the stable sort -/

theorem length_insertCmp (cmp : α → α → Int) (x : α) (l : List α) :
    (insertCmp cmp x l).length = l.length + 1 := by
  induction l with
  | nil => rfl
  | cons y ys ih => simp only [insertCmp]; split <;> simp [ih]

theorem length_sortCmp (cmp : α → α → Int) (l : List α) :
    (sortCmp cmp l).length = l.length := by
  induction l with
  | nil => rfl
  | cons x xs ih => simp [sortCmp, length_insertCmp, ih]

theorem take_four_getD (l : List α) (d : α) (h : 4 ≤ l.length) :
    l.take 4 = [l.getD 0 d, l.getD 1 d, l.getD 2 d, l.getD 3 d] := by
  rcases l with _ | ⟨a, _ | ⟨b, _ | ⟨c, _ | ⟨e, rest⟩⟩⟩⟩
  · simp at h
  · simp at h
  · simp at h
  · simp at h
  · rfl

/-! ### C9 (selection is independent of the filtered view) -/

/-- C9: changing the search text, the category filter or the date
filter recomputes filteredPhotos but leaves the selection set
untouched, so photos hidden by the new filter stay selected. -/
theorem selection_unchanged_by_filtering (g : GalleryState) (q c : String) (f : DateFilter) :
    (setSearchQuery g q).selectedPhotos = g.selectedPhotos ∧
    (setCategoryFilter g c).selectedPhotos = g.selectedPhotos ∧
    (setDateFilter g f).selectedPhotos = g.selectedPhotos ∧
    (filterAndSortPhotos g).selectedPhotos = g.selectedPhotos ∧
    (∀ pid, pid ∈ g.selectedPhotos → pid ∈ (setCategoryFilter g c).selectedPhotos) :=
  ⟨rfl, rfl, rfl, rfl, fun _ hp => hp⟩

/-! ### C8 (category filter round trip) -/

/-- C8: starting from a gallery whose category filter is 'all' and
whose displayed list is in sync, filtering by any category and then
clearing the filter back to 'all' displays exactly the sequence shown
before, and the authoritative photo list is never mutated. -/
theorem category_filter_roundtrip (g : GalleryState) (c : String)
    (hcat : g.currentCategory = "all")
    (hsync : g.filteredPhotos = computeFiltered g) :
    (setCategoryFilter (setCategoryFilter g c) "all").filteredPhotos = g.filteredPhotos ∧
    (setCategoryFilter g c).photos = g.photos ∧
    (setCategoryFilter (setCategoryFilter g c) "all").photos = g.photos := by
  refine ⟨?_, rfl, rfl⟩
  cases g with
  | mk ph fp sel srt fl cat q =>
    obtain rfl : cat = "all" := hcat
    rw [hsync]
    rfl

/-- Witness for C8 at a concrete two-photo gallery. -/
theorem category_filter_roundtrip_witness :
    (setCategoryFilter (setCategoryFilter g0 "travel") "all").filteredPhotos =
      g0.filteredPhotos ∧
    (setCategoryFilter g0 "travel").photos = g0.photos ∧
    (setCategoryFilter (setCategoryFilter g0 "travel") "all").photos = g0.photos :=
  category_filter_roundtrip g0 "travel" rfl rfl

/-! ### C10 (delete always reports success) -/

/-- C10: behind authentication, DELETE /api/photos/:id answers status
200 with success true for every state and every id — also when the
page does not exist or is already archived (those failures are caught
and swallowed). -/
theorem apiDeletePhoto_always_success (s : ServerState) (u id : String) :
    (apiDeletePhoto s (some u) id).1 = (200, true) := rfl

/-! ### C2 (image endpoint authentication) -/

/-- Counterexample to C2: an unauthenticated request for a cached key
is answered 200 with the image payload, not 401. -/
theorem apiImages_unauthenticated_serves :
    apiImages bugState none "photo-0-key" = (200, some ("image/png", "AAAA")) ∧
    (apiImages bugState none "photo-0-key").1 ≠ 401 := by
  exact ⟨by decide, by decide⟩

/-- C2 amended: GET /api/images/:imageKey is not session-cookie
authenticated — the response is the same with and without a session
and is never 401 (it is 404 for an unknown key, 400 for a malformed
cached payload, 200 with bytes otherwise). -/
theorem apiImages_ignores_session (s : ServerState) (sess : Option String) (k : String) :
    apiImages s sess k = apiImages s none k ∧ (apiImages s sess k).1 ≠ 401 := by
  refine ⟨rfl, ?_⟩
  simp only [apiImages]
  cases hd : storeGet s.imageStore k with
  | none => decide
  | some d =>
    cases hp : parseDataUrl d with
    | none => simp [hp]
    | some m => simp [hp]

/-! ### C6 (duplicate registration) -/

/-- C6: when some existing user already carries the requested username
or email, POST /api/register answers 400 and the users store is
unchanged. -/
theorem register_duplicate_rejected (store : List UserRec) (req : RegisterReq)
    (hash : String → String) (newId : String) (u : UserRec) (hu : u ∈ store)
    (hdup : u.username = req.username ∨ u.email = req.email) :
    (register store req hash newId).1 = 400 ∧ (register store req hash newId).2 = store := by
  unfold register
  by_cases hf : req.username = "" ∨ req.email = "" ∨ req.password = ""
  · rw [if_pos hf]; exact ⟨rfl, rfl⟩
  · have hany : (store.any fun v => v.username = req.username ∨ v.email = req.email) = true := by
      rw [List.any_eq_true]
      exact ⟨u, hu, by simpa using hdup⟩
    rw [if_neg hf, if_pos hany]
    exact ⟨rfl, rfl⟩

/-- Witness for C6: registering a second alice is rejected and creates
nothing. -/
theorem register_duplicate_rejected_witness :
    (register usersWithAlice aliceReq (fun p => p) "u2").1 = 400 ∧
    (register usersWithAlice aliceReq (fun p => p) "u2").2 = usersWithAlice :=
  register_duplicate_rejected usersWithAlice aliceReq (fun p => p) "u2"
    { id := "u1", username := "alice", email := "alice@example.com",
      passwordHash := "h", fullName := "Alice" }
    (by decide) (Or.inl rfl)

/-! ### C1 (delete must evict the blob — the code keys the eviction
by the page id instead of the photo's image key) -/

/-- C1, evaluated at the failing input: deleting the photo archives
its record, but the blob stored under the photo's image key
"photo-0-key" is still in the cache afterwards (the handler deleted
under the page id "page-1" instead), so GET /api/images/photo-0-key
still answers 200, not 404. -/
theorem delete_leaves_blob_cached :
    (apiDeletePhoto bugState (some "user-1") "page-1").2.pages =
      [{ id := "page-1", archived := true, imageKey := "photo-0-key" }] ∧
    storeGet (apiDeletePhoto bugState (some "user-1") "page-1").2.imageStore "photo-0-key" =
      some "data:image/png;base64,AAAA" ∧
    (apiImages (apiDeletePhoto bugState (some "user-1") "page-1").2 (some "user-1")
      "photo-0-key").1 = 200 := by
  exact ⟨by decide, by decide, by decide⟩

/-! ### Upload manager invariant -/

theorem admitLoop_active (maxC : Nat) (q : List UploadItem) :
    ∀ active, (admitLoop maxC q active).2.2 = active + (admitLoop maxC q active).2.1.length := by
  induction q with
  | nil => intro active; simp [admitLoop]
  | cons item rest ih =>
    intro active
    by_cases h : active < maxC
    · simp only [admitLoop, if_pos h, List.length_cons]
      have := ih (active + 1)
      omega
    · simp [admitLoop, if_neg h]

theorem admitLoop_le (maxC : Nat) (q : List UploadItem) :
    ∀ active, active ≤ maxC → (admitLoop maxC q active).2.2 ≤ maxC := by
  induction q with
  | nil => intro active h; simpa [admitLoop] using h
  | cons item rest ih =>
    intro active h
    by_cases hlt : active < maxC
    · simp only [admitLoop, if_pos hlt]
      exact ih (active + 1) hlt
    · simpa [admitLoop, if_neg hlt] using h

theorem admitLoop_length (maxC : Nat) (q : List UploadItem) :
    ∀ active,
      q.length = (admitLoop maxC q active).2.1.length + (admitLoop maxC q active).1.length := by
  induction q with
  | nil => intro active; simp [admitLoop]
  | cons item rest ih =>
    intro active
    by_cases h : active < maxC
    · simp only [admitLoop, if_pos h, List.length_cons]
      have := ih (active + 1)
      omega
    · simp [admitLoop, if_neg h]

theorem invUM_processQueue {s : UMState} (h : InvUM s) : InvUM (processQueue s) := by
  obtain ⟨hmax, hact, hle, htot⟩ := h
  have ha := admitLoop_active s.maxConcurrentUploads s.queue s.activeUploads
  have hl := admitLoop_length s.maxConcurrentUploads s.queue s.activeUploads
  have hb := admitLoop_le s.maxConcurrentUploads s.queue s.activeUploads (by omega)
  refine ⟨hmax, ?_, ?_, ?_⟩ <;>
    simp only [processQueue, List.length_append] <;> omega

theorem invUM_applyCompletion {s : UMState} {item : UploadItem} {success : Bool}
    (h : InvUM s) (hm : item ∈ s.inflight) : InvUM (applyCompletion s item success) := by
  obtain ⟨hmax, hact, hle, htot⟩ := h
  have hlen : (s.inflight.erase item).length = s.inflight.length - 1 :=
    List.length_erase_of_mem hm
  have hpos : 0 < s.inflight.length := List.length_pos.mpr (List.ne_nil_of_mem hm)
  cases success
  · refine ⟨hmax, ?_, ?_, ?_⟩
    · show s.activeUploads - 1 = (s.inflight.erase item).length
      omega
    · show s.activeUploads - 1 ≤ 3
      omega
    · show s.totalFiles = s.queue.length + (s.inflight.erase item).length +
        s.completedFiles + (s.failedFiles + 1)
      omega
  · refine ⟨hmax, ?_, ?_, ?_⟩
    · show s.activeUploads - 1 = (s.inflight.erase item).length
      omega
    · show s.activeUploads - 1 ≤ 3
      omega
    · show s.totalFiles = s.queue.length + (s.inflight.erase item).length +
        (s.completedFiles + 1) + s.failedFiles
      omega

theorem invUM_addFiles {s : UMState} (h : InvUM s) (files : List UploadItem)
    (valid : UploadItem → Bool) : InvUM (addFiles s files valid) := by
  obtain ⟨hmax, hact, hle, htot⟩ := h
  refine ⟨hmax, hact, hle, ?_⟩
  simp only [addFiles, List.length_append, List.length_map]
  omega

theorem invUM_startUpload {s : UMState} (h : InvUM s) : InvUM (startUpload s) := by
  unfold startUpload
  split
  · exact h
  · exact invUM_processQueue h

theorem invUM_resetUM {s : UMState} (h : InvUM s) : InvUM (resetUM s) := by
  obtain ⟨hmax, _, _, _⟩ := h
  exact ⟨hmax, rfl, by show (0 : Nat) ≤ 3; omega, rfl⟩

theorem invUM_handleUploadComplete {s : UMState} {item : UploadItem} {success : Bool}
    (h : InvUM s) (hm : item ∈ s.inflight) : InvUM (handleUploadComplete s item success).1 := by
  have h2 : InvUM (processQueue (applyCompletion s item success)) :=
    invUM_processQueue (invUM_applyCompletion h hm)
  simp only [handleUploadComplete]
  split
  · exact invUM_resetUM h2
  · exact h2

theorem invUM_reachable {s : UMState} (h : ReachableUM s) : InvUM s := by
  induction h with
  | init => exact ⟨rfl, rfl, by show (0 : Nat) ≤ 3; omega, rfl⟩
  | add files valid _ ih => exact invUM_addFiles ih files valid
  | start _ ih => exact invUM_startUpload ih
  | complete item success _ hm ih => exact invUM_handleUploadComplete ih hm

/-! ### C3 (concurrency cap) -/

/-- C3: in every reachable state of the upload manager the number of
simultaneously in-flight uploads is at most the cap 3, and the
completion of any in-flight item admits at most enough pending items
to keep it there. -/
theorem upload_concurrency_cap {s : UMState} (h : ReachableUM s) :
    s.activeUploads ≤ 3 ∧
    ∀ item success, item ∈ s.inflight →
      (handleUploadComplete s item success).1.activeUploads ≤ 3 := by
  refine ⟨(invUM_reachable h).2.2.1, ?_⟩
  intro item success hm
  exact (invUM_reachable (ReachableUM.complete item success h hm)).2.2.1

/-- Witness for C3 at the state with one admitted upload. -/
theorem upload_concurrency_cap_witness :
    um1.activeUploads ≤ 3 ∧
    ∀ item success, item ∈ um1.inflight →
      (handleUploadComplete um1 item success).1.activeUploads ≤ 3 :=
  upload_concurrency_cap
    (ReachableUM.start (ReachableUM.add [{ id := 1, status := UStatus.pending }]
      (fun _ => true) ReachableUM.init))

/-! ### C5 (allComplete fires exactly at batch completion) -/

/-- C5: completing an in-flight item fires the allComplete event
exactly when, after the completion is accounted and the queue
processed, no item of the batch is still pending or in flight (all
items are terminal); the payload carries that state's total, completed
and failed counts, with completed + failed = total. -/
theorem allComplete_fires_exactly_when_batch_done {s : UMState} (item : UploadItem)
    (success : Bool) (h : ReachableUM s) (hm : item ∈ s.inflight) :
    ((handleUploadComplete s item success).2.isSome ↔
      ((processQueue (applyCompletion s item success)).queue = [] ∧
       (processQueue (applyCompletion s item success)).inflight = [])) ∧
    (∀ t c f, (handleUploadComplete s item success).2 = some (UMEvent.allComplete t c f) →
      t = (processQueue (applyCompletion s item success)).totalFiles ∧
      c = (processQueue (applyCompletion s item success)).completedFiles ∧
      f = (processQueue (applyCompletion s item success)).failedFiles ∧
      c + f = t) := by
  set s2 := processQueue (applyCompletion s item success) with hs2
  obtain ⟨hmax, hact, hle, htot⟩ :
      InvUM s2 := invUM_processQueue (invUM_applyCompletion (invUM_reachable h) hm)
  have hqi : (s2.queue = [] ∧ s2.inflight = []) ↔
      s2.completedFiles + s2.failedFiles = s2.totalFiles := by
    constructor
    · rintro ⟨h1, h2⟩
      rw [h1, h2] at htot
      simpa using htot.symm
    · intro hf
      have hq : s2.queue.length = 0 ∧ s2.inflight.length = 0 := by omega
      exact ⟨List.length_eq_zero.mp hq.1, List.length_eq_zero.mp hq.2⟩
  have hHU : handleUploadComplete s item success =
      if s2.completedFiles + s2.failedFiles = s2.totalFiles then
        (resetUM s2, some (UMEvent.allComplete s2.totalFiles s2.completedFiles s2.failedFiles))
      else (s2, none) := rfl
  by_cases hfire : s2.completedFiles + s2.failedFiles = s2.totalFiles
  · rw [hHU, if_pos hfire]
    constructor
    · exact iff_of_true rfl (hqi.mpr hfire)
    · rintro t c f heq
      obtain ⟨rfl, rfl, rfl⟩ :
          s2.totalFiles = t ∧ s2.completedFiles = c ∧ s2.failedFiles = f := by
        have := Option.some.inj heq
        cases this
        exact ⟨rfl, rfl, rfl⟩
      exact ⟨rfl, rfl, rfl, hfire⟩
  · rw [hHU, if_neg hfire]
    constructor
    · exact iff_of_false (by simp) (fun hh => hfire (hqi.mp hh))
    · intro t c f heq
      exact absurd heq (by simp)

/-- Witness for C5: completing the single in-flight upload of um1. -/
theorem allComplete_witness :
    ((handleUploadComplete um1 { id := 1, status := UStatus.uploading } true).2.isSome ↔
      ((processQueue (applyCompletion um1 { id := 1, status := UStatus.uploading } true)).queue
          = [] ∧
       (processQueue (applyCompletion um1 { id := 1, status := UStatus.uploading } true)).inflight
          = [])) ∧
    (∀ t c f, (handleUploadComplete um1 { id := 1, status := UStatus.uploading } true).2 =
        some (UMEvent.allComplete t c f) →
      t = (processQueue (applyCompletion um1
            { id := 1, status := UStatus.uploading } true)).totalFiles ∧
      c = (processQueue (applyCompletion um1
            { id := 1, status := UStatus.uploading } true)).completedFiles ∧
      f = (processQueue (applyCompletion um1
            { id := 1, status := UStatus.uploading } true)).failedFiles ∧
      c + f = t) :=
  allComplete_fires_exactly_when_batch_done { id := 1, status := UStatus.uploading } true
    (ReachableUM.start (ReachableUM.add [{ id := 1, status := UStatus.pending }]
      (fun _ => true) ReachableUM.init))
    (by decide)

/-! ### C4 (representative photo selection) -/

/-- Counterexample to C4: a 5-photo day group.  The selection step is
floor(5 / 4) = 1, so the representatives are exactly the first 4
photos of the chronologically sorted group — the opposite of what the
claim states for this group. -/
theorem representatives_are_first_four_on_5 :
    selectRepresentativePhotos exGroup5 = (sortCmp dateAscCmp exGroup5).take 4 ∧
    (sortCmp dateAscCmp exGroup5).take 4 =
      [tPhoto "a" 1, tPhoto "b" 2, tPhoto "c" 3, tPhoto "d" 4] := by
  exact ⟨by decide, by decide⟩

/-- C4 amended: for a group of n > 4 photos the representatives are
the photos at indices 0, ⌊n/4⌋, 2⌊n/4⌋, 3⌊n/4⌋ of the group sorted by
upload time (the clamp min(·, n-1) never bites).  For 5 ≤ n ≤ 7 that
step is 1, so the selection is exactly the first 4 of the sorted
group; only for n ≥ 8 is the step at least 2 and the selection spread
out. -/
theorem selectRepresentatives_spec (photos : List Photo) (h : 4 < photos.length) :
    selectRepresentativePhotos photos =
      [(sortCmp dateAscCmp photos).getD 0 dummyPhoto,
       (sortCmp dateAscCmp photos).getD (photos.length / 4) dummyPhoto,
       (sortCmp dateAscCmp photos).getD (2 * (photos.length / 4)) dummyPhoto,
       (sortCmp dateAscCmp photos).getD (3 * (photos.length / 4)) dummyPhoto] ∧
    (photos.length ≤ 7 →
      selectRepresentativePhotos photos = (sortCmp dateAscCmp photos).take 4) ∧
    (8 ≤ photos.length → 2 ≤ photos.length / 4) := by
  have hlen : (sortCmp dateAscCmp photos).length = photos.length := length_sortCmp _ _
  have hmain : selectRepresentativePhotos photos =
      [(sortCmp dateAscCmp photos).getD 0 dummyPhoto,
       (sortCmp dateAscCmp photos).getD (photos.length / 4) dummyPhoto,
       (sortCmp dateAscCmp photos).getD (2 * (photos.length / 4)) dummyPhoto,
       (sortCmp dateAscCmp photos).getD (3 * (photos.length / 4)) dummyPhoto] := by
    simp only [selectRepresentativePhotos]
    rw [if_neg (by omega)]
    have hr : List.range 4 = [0, 1, 2, 3] := rfl
    rw [hr]
    simp only [List.map_cons, List.map_nil, hlen]
    have m0 : min (0 * (photos.length / 4)) (photos.length - 1) = 0 := by omega
    have m1 : min (1 * (photos.length / 4)) (photos.length - 1) = photos.length / 4 := by
      omega
    have m2 : min (2 * (photos.length / 4)) (photos.length - 1) =
        2 * (photos.length / 4) := by omega
    have m3 : min (3 * (photos.length / 4)) (photos.length - 1) =
        3 * (photos.length / 4) := by omega
    rw [m0, m1, m2, m3]
  refine ⟨hmain, ?_, ?_⟩
  · intro h7
    rw [hmain, take_four_getD _ dummyPhoto (by omega)]
    have h1 : photos.length / 4 = 1 := by omega
    rw [h1]
  · intro h8
    omega

/-- Witness for the amended C4 at a 6-photo group: the step is 1 and
the representatives are the first 4 of the sorted group. -/
theorem selectRepresentatives_spec_witness :
    selectRepresentativePhotos exGroup6 =
      [(sortCmp dateAscCmp exGroup6).getD 0 dummyPhoto,
       (sortCmp dateAscCmp exGroup6).getD (exGroup6.length / 4) dummyPhoto,
       (sortCmp dateAscCmp exGroup6).getD (2 * (exGroup6.length / 4)) dummyPhoto,
       (sortCmp dateAscCmp exGroup6).getD (3 * (exGroup6.length / 4)) dummyPhoto] ∧
    (exGroup6.length ≤ 7 →
      selectRepresentativePhotos exGroup6 = (sortCmp dateAscCmp exGroup6).take 4) ∧
    (8 ≤ exGroup6.length → 2 ≤ exGroup6.length / 4) :=
  selectRepresentatives_spec exGroup6 (by decide)

/-! ### C7 helper lemmas: head of the descending stable sort -/

theorem sortCmp_eq_nil_iff (cmp : α → α → Int) (l : List α) : sortCmp cmp l = [] ↔ l = [] := by
  constructor
  · intro h
    have hl := length_sortCmp cmp l
    rw [h] at hl
    exact List.length_eq_zero.mp hl.symm
  · rintro rfl; rfl

/-- The head of the stable descending sort of a count list is an entry
of maximal count, and every entry listed before it in the original
list has a strictly smaller count (so among maximal entries the head
is the first-listed one). -/
theorem sortCountsDesc_head :
    ∀ (l : List (String × Nat)) (a : String × Nat) (rest : List (String × Nat)),
      sortCmp countCmp l = a :: rest →
      a ∈ l ∧ (∀ y ∈ l, y.2 ≤ a.2) ∧
      ∃ l1 l2, l = l1 ++ a :: l2 ∧ ∀ y ∈ l1, y.2 < a.2 := by
  intro l
  induction l with
  | nil => intro a rest h; simp [sortCmp] at h
  | cons x xs ih =>
    intro a rest h
    rw [sortCmp] at h
    cases hs : sortCmp countCmp xs with
    | nil =>
      have hxs : xs = [] := (sortCmp_eq_nil_iff countCmp xs).mp hs
      rw [hs] at h
      simp only [insertCmp] at h
      injection h with h1 h2
      subst h1
      subst hxs
      refine ⟨List.mem_cons_self x [], ?_, [], [], rfl, by simp⟩
      intro y hy
      rcases List.mem_cons.mp hy with rfl | h3
      · exact le_refl _
      · simp at h3
    | cons b brest =>
      rw [hs] at h
      obtain ⟨hbmem, hbmax, m1, m2, hxseq, hm1⟩ := ih b brest hs
      simp only [insertCmp] at h
      by_cases hcb : countCmp x b ≤ 0
      · rw [if_pos hcb] at h
        injection h with h1 h2
        subst h1
        have hble : b.2 ≤ x.2 := by simp [countCmp] at hcb; omega
        refine ⟨List.mem_cons_self _ _, ?_, [], xs, rfl, by simp⟩
        intro y hy
        rcases List.mem_cons.mp hy with rfl | h3
        · exact le_refl _
        · exact le_trans (hbmax y h3) hble
      · rw [if_neg hcb] at h
        injection h with h1 h2
        subst h1
        have hxlt : x.2 < b.2 := by simp [countCmp] at hcb; omega
        refine ⟨List.mem_cons_of_mem x hbmem, ?_, x :: m1, m2, by simp [hxseq], ?_⟩
        · intro y hy
          rcases List.mem_cons.mp hy with rfl | h3
          · exact le_of_lt hxlt
          · exact hbmax y h3
        · intro y hy
          rcases List.mem_cons.mp hy with rfl | h3
          · exact hxlt
          · exact hm1 y h3

/-! ### C7 helper lemmas: the counting object -/

theorem bump_keys (k : String) (acc : List (String × Nat)) :
    (bump k acc).map Prod.fst =
      if k ∈ acc.map Prod.fst then acc.map Prod.fst else acc.map Prod.fst ++ [k] := by
  induction acc with
  | nil => simp [bump]
  | cons e rest ih =>
    obtain ⟨k', v⟩ := e
    by_cases hk : k' = k
    · subst hk
      simp [bump]
    · simp only [bump, if_neg hk, List.map_cons]
      rw [ih]
      by_cases hm : k ∈ rest.map Prod.fst
      · rw [if_pos hm, if_pos (List.mem_cons_of_mem _ hm)]
      · rw [if_neg hm, if_neg ?_]
        · rfl
        · intro hc
          rcases List.mem_cons.mp hc with h2 | h2
          · exact hk h2.symm
          · exact hm h2

theorem bump_findVal_self (k : String) (acc : List (String × Nat)) :
    findVal (bump k acc) k = some ((findVal acc k).getD 0 + 1) := by
  induction acc with
  | nil => simp [bump, findVal]
  | cons e rest ih =>
    obtain ⟨k', v⟩ := e
    by_cases hk : k' = k
    · subst hk
      simp [bump, findVal]
    · simp [bump, findVal, hk, ih]

theorem bump_findVal_other {k k' : String} (hk : k' ≠ k) (acc : List (String × Nat)) :
    findVal (bump k acc) k' = findVal acc k' := by
  induction acc with
  | nil => simp [bump, findVal, Ne.symm hk]
  | cons e rest ih =>
    obtain ⟨k'', v⟩ := e
    by_cases h2 : k'' = k
    · subst h2
      simp [bump, findVal, Ne.symm hk]
    · simp [bump, findVal, h2, ih]

theorem occKeys_cons (p : Photo) (ps : List Photo) (ks : List String) :
    occKeys (p :: ps) ks =
      occKeys ps (if p.category ∈ ks then ks else ks ++ [p.category]) := rfl

theorem categoryCounts_keys :
    ∀ (photos : List Photo) (acc : List (String × Nat)),
      (photos.foldl (fun acc p => bump p.category acc) acc).map Prod.fst =
        occKeys photos (acc.map Prod.fst) := by
  intro photos
  induction photos with
  | nil => intro acc; simp [occKeys]
  | cons p ps ih =>
    intro acc
    rw [List.foldl_cons, occKeys_cons, ih (bump p.category acc), bump_keys]

theorem categoryCounts_findVal :
    ∀ (photos : List Photo) (acc : List (String × Nat)) (k : String),
      findVal (photos.foldl (fun acc p => bump p.category acc) acc) k =
        if countCat photos k = 0 then findVal acc k
        else some ((findVal acc k).getD 0 + countCat photos k) := by
  intro photos
  induction photos with
  | nil => intro acc k; simp [countCat]
  | cons p ps ih =>
    intro acc k
    rw [List.foldl_cons, ih (bump p.category acc) k]
    by_cases hpk : p.category = k
    · subst hpk
      have hc : countCat (p :: ps) p.category = countCat ps p.category + 1 := by
        simp [countCat]
      rw [bump_findVal_self, hc]
      by_cases h0 : countCat ps p.category = 0
      · rw [if_pos h0, if_neg (by omega), h0]
      · rw [if_neg h0, if_neg (by omega)]
        simp only [Option.getD_some, Option.some.injEq]
        omega
    · have hc : countCat (p :: ps) k = countCat ps k := by
        simp [countCat, hpk]
      rw [hc, bump_findVal_other (fun h => hpk h.symm)]

theorem occKeys_nodup :
    ∀ (photos : List Photo) (ks : List String), ks.Nodup → (occKeys photos ks).Nodup := by
  intro photos
  induction photos with
  | nil => intro ks h; simpa [occKeys] using h
  | cons p ps ih =>
    intro ks h
    rw [occKeys_cons]
    by_cases hm : p.category ∈ ks
    · rw [if_pos hm]; exact ih ks h
    · rw [if_neg hm]
      exact ih _ (by simp [List.nodup_append, h, hm])

theorem occKeys_append_extra :
    ∀ (photos : List Photo) (ks : List String),
      ∃ extra, occKeys photos ks = ks ++ extra ∧ ∀ k ∈ extra, k ∉ ks := by
  intro photos
  induction photos with
  | nil => intro ks; exact ⟨[], by simp [occKeys], by simp⟩
  | cons p ps ih =>
    intro ks
    rw [occKeys_cons]
    by_cases hm : p.category ∈ ks
    · rw [if_pos hm]; exact ih ks
    · rw [if_neg hm]
      obtain ⟨extra, heq, hni⟩ := ih (ks ++ [p.category])
      refine ⟨p.category :: extra, ?_, ?_⟩
      · rw [heq, List.append_assoc]
        rfl
      · intro k hk
        rcases List.mem_cons.mp hk with rfl | hk2
        · exact hm
        · exact fun hks => hni k hk2 (List.mem_append_left _ hks)

theorem mem_occKeys :
    ∀ (photos : List Photo) (ks : List String) (k : String),
      k ∈ occKeys photos ks ↔ k ∈ ks ∨ ∃ p ∈ photos, p.category = k := by
  intro photos
  induction photos with
  | nil => intro ks k; simp [occKeys]
  | cons p ps ih =>
    intro ks k
    rw [occKeys_cons]
    by_cases hm : p.category ∈ ks
    · rw [if_pos hm, ih]
      constructor
      · rintro (h | ⟨q, hq, rfl⟩)
        · exact Or.inl h
        · exact Or.inr ⟨q, List.mem_cons_of_mem p hq, rfl⟩
      · rintro (h | ⟨q, hq, rfl⟩)
        · exact Or.inl h
        · rcases List.mem_cons.mp hq with rfl | hq2
          · exact Or.inl hm
          · exact Or.inr ⟨q, hq2, rfl⟩
    · rw [if_neg hm, ih]
      constructor
      · rintro (h | ⟨q, hq, rfl⟩)
        · rcases List.mem_append.mp h with h2 | h2
          · exact Or.inl h2
          · have h3 : k = p.category := by simpa using h2
            exact Or.inr ⟨p, List.mem_cons_self p ps, h3.symm⟩
        · exact Or.inr ⟨q, List.mem_cons_of_mem p hq, rfl⟩
      · rintro (h | ⟨q, hq, rfl⟩)
        · exact Or.inl (List.mem_append_left _ h)
        · rcases List.mem_cons.mp hq with rfl | hq2
          · exact Or.inl (List.mem_append_right _ (by simp))
          · exact Or.inr ⟨q, hq2, rfl⟩

theorem findVal_some_mem :
    ∀ {l : List (String × Nat)} {k : String} {v : Nat}, findVal l k = some v → (k, v) ∈ l := by
  intro l
  induction l with
  | nil => intro k v h; simp [findVal] at h
  | cons e rest ih =>
    intro k v h
    obtain ⟨k', v'⟩ := e
    by_cases hk : k' = k
    · subst hk
      simp [findVal] at h
      subst h
      exact List.mem_cons_self _ _
    · simp only [findVal, if_neg hk] at h
      exact List.mem_cons_of_mem _ (ih h)

theorem mem_findVal_of_nodup :
    ∀ {l : List (String × Nat)}, (l.map Prod.fst).Nodup →
      ∀ {k : String} {v : Nat}, (k, v) ∈ l → findVal l k = some v := by
  intro l
  induction l with
  | nil => intro _ k v h; simp at h
  | cons e rest ih =>
    intro hnd k v h
    obtain ⟨k', v'⟩ := e
    simp only [List.map_cons, List.nodup_cons] at hnd
    rcases List.mem_cons.mp h with heq | hmem
    · obtain ⟨rfl, rfl⟩ : k = k' ∧ v = v' := by
        have := Prod.mk.inj heq
        exact ⟨this.1, this.2⟩
      simp [findVal]
    · by_cases hk : k' = k
      · subst hk
        have : k' ∈ rest.map Prod.fst := List.mem_map_of_mem Prod.fst hmem
        exact absurd this hnd.1
      · simp only [findVal, if_neg hk]
        exact ih hnd.2 hmem

theorem first_occurrence_split {k : String} :
    ∀ {photos : List Photo}, (∃ p ∈ photos, p.category = k) →
      ∃ l1 p l2, photos = l1 ++ p :: l2 ∧ p.category = k ∧ ∀ q ∈ l1, q.category ≠ k := by
  intro photos
  induction photos with
  | nil => rintro ⟨p, hp, _⟩; simp at hp
  | cons p ps ih =>
    rintro ⟨q, hq, hqk⟩
    by_cases hpk : p.category = k
    · exact ⟨[], p, ps, by simp, hpk, by simp⟩
    · have hq2 : q ∈ ps := by
        rcases List.mem_cons.mp hq with rfl | h
        · exact absurd hqk hpk
        · exact h
      obtain ⟨l1, r, l2, heq, hrk, hl1⟩ := ih ⟨q, hq2, hqk⟩
      refine ⟨p :: l1, r, l2, by simp [heq], hrk, ?_⟩
      intro x hx
      rcases List.mem_cons.mp hx with rfl | h
      · exact hpk
      · exact hl1 x h

/-- In a list that decomposes both as P ++ E and as K1 ++ c :: K2 with
c outside P, every element of the prefix P lies in K1 (it sits before
c). -/
theorem mem_left_of_before :
    ∀ (P : List String) {E K1 K2 : List String} {c k : String},
      P ++ E = K1 ++ c :: K2 → c ∉ P → k ∈ P → k ∈ K1 := by
  intro P
  induction P with
  | nil => intro E K1 K2 c k h hc hk; simp at hk
  | cons x P2 ih =>
    intro E K1 K2 c k h hc hk
    cases K1 with
    | nil =>
      simp only [List.cons_append, List.nil_append] at h
      injection h with h1 h2
      subst h1
      exact absurd (List.mem_cons_self _ _) hc
    | cons y K1x =>
      simp only [List.cons_append] at h
      injection h with h1 h2
      subst h1
      rcases List.mem_cons.mp hk with rfl | hk2
      · exact List.mem_cons_self _ _
      · exact List.mem_cons_of_mem _
          (ih h2 (fun hcp => hc (List.mem_cons_of_mem _ hcp)) hk2)

/-! ### C7 (dominant category of a group) -/

/-- When no key of the counting object is array-index-like, the
Object.entries enumeration is plain insertion order. -/
theorem jsEntries_of_no_numeric {assoc : List (String × Nat)}
    (h : ∀ e ∈ assoc, isArrayIndex e.1 = false) : jsEntries assoc = assoc := by
  have h1 : assoc.filter (fun e => isArrayIndex e.1) = [] :=
    List.filter_eq_nil_iff.mpr (fun e he => by simp [h e he])
  have h2 : assoc.filter (fun e => !(isArrayIndex e.1)) = assoc :=
    List.filter_eq_self.mpr (fun e he => by simp [h e he])
  rw [jsEntries, h1, h2]
  rfl

/-- Counterexample to C7: in the group [travel, 2024, 2024, travel]
the counts are tied at 2 and the first photo's category "travel"
attains the maximum, yet getMostCommonCategory returns the
array-index-like custom category "2024", which Object.entries lists
before every non-numeric key regardless of encounter order. -/
theorem getMostCommonCategory_numeric_key_cex :
    getMostCommonCategory numTieGroup = "2024" ∧
    countCat numTieGroup "travel" = 2 ∧
    countCat numTieGroup "2024" = 2 ∧
    (numTieGroup.getD 0 dummyPhoto).category = "travel" ∧
    "2024" ≠ "travel" := by
  refine ⟨by decide, by decide, by decide, by decide, by decide⟩

/-- C7 amended: for a non-empty group whose categories are non-empty
strings (the server substitutes "other" for a missing category) and
none of which is an array-index-like numeric string (true of every
built-in category; only a free-text custom category can be numeric),
getMostCommonCategory returns a category of maximal frequency in the
group, and among the categories tied at that maximum the chosen one
is the first-encountered: the group splits at a photo carrying the
chosen category such that every earlier photo's category is strictly
less frequent. -/
theorem mostCommonCategory_spec (photos : List Photo) (hne : photos ≠ [])
    (hcats : ∀ p ∈ photos, p.category ≠ "")
    (hnum : ∀ p ∈ photos, isArrayIndex p.category = false) :
    (∃ p ∈ photos, p.category = getMostCommonCategory photos) ∧
    (∀ k, countCat photos k ≤ countCat photos (getMostCommonCategory photos)) ∧
    (∃ l1 p l2, photos = l1 ++ p :: l2 ∧ p.category = getMostCommonCategory photos ∧
      ∀ q ∈ l1, countCat photos q.category <
        countCat photos (getMostCommonCategory photos)) := by
  have hkeys : (categoryCounts photos).map Prod.fst = firstOccs photos := by
    simpa [categoryCounts, firstOccs] using categoryCounts_keys photos []
  have hfv : ∀ k, findVal (categoryCounts photos) k =
      if countCat photos k = 0 then none else some (countCat photos k) := by
    intro k
    simpa [findVal, categoryCounts] using categoryCounts_findVal photos [] k
  have hnd : ((categoryCounts photos).map Prod.fst).Nodup := by
    rw [hkeys]
    exact occKeys_nodup photos [] List.nodup_nil
  obtain ⟨p0, hp0⟩ : ∃ p, p ∈ photos := by
    cases photos with
    | nil => exact absurd rfl hne
    | cons q qs => exact ⟨q, List.mem_cons_self q qs⟩
  have hcne : categoryCounts photos ≠ [] := by
    intro h
    have hk0 : p0.category ∈ firstOccs photos :=
      (mem_occKeys photos [] p0.category).mpr (Or.inr ⟨p0, hp0, rfl⟩)
    rw [← hkeys, h] at hk0
    simp at hk0
  have hnokey : ∀ e ∈ categoryCounts photos, isArrayIndex e.1 = false := by
    intro e he
    have hek : e.1 ∈ firstOccs photos := by
      rw [← hkeys]
      exact List.mem_map_of_mem Prod.fst he
    rcases (mem_occKeys photos [] e.1).mp hek with h | ⟨q, hq, hqc⟩
    · simp at h
    · exact hqc ▸ hnum q hq
  have hje : jsEntries (categoryCounts photos) = categoryCounts photos :=
    jsEntries_of_no_numeric hnokey
  obtain ⟨a, rest, hsort⟩ :
      ∃ a rest, sortCmp countCmp (categoryCounts photos) = a :: rest := by
    cases hs : sortCmp countCmp (categoryCounts photos) with
    | nil => exact absurd ((sortCmp_eq_nil_iff _ _).mp hs) hcne
    | cons a rest => exact ⟨a, rest, rfl⟩
  obtain ⟨hamem, hamax, cl1, cl2, hcsplit, hcl1⟩ :=
    sortCountsDesc_head _ a rest hsort
  obtain ⟨c0, v⟩ := a
  have hc0keys : c0 ∈ firstOccs photos := by
    rw [← hkeys]
    exact List.mem_map_of_mem Prod.fst hamem
  have hc0occ : ∃ p ∈ photos, p.category = c0 := by
    rcases (mem_occKeys photos [] c0).mp hc0keys with h | h
    · simp at h
    · exact h
  have hc0ne : c0 ≠ "" := by
    obtain ⟨q, hq, hqc⟩ := hc0occ
    exact hqc ▸ hcats q hq
  have hgc : getMostCommonCategory photos = c0 := by
    simp [getMostCommonCategory, hje, hsort, hc0ne]
  have hv : findVal (categoryCounts photos) c0 = some v := mem_findVal_of_nodup hnd hamem
  have hvcount : v = countCat photos c0 := by
    rw [hfv c0] at hv
    by_cases h0 : countCat photos c0 = 0
    · rw [if_pos h0] at hv; cases hv
    · rw [if_neg h0] at hv
      exact (Option.some.inj hv).symm
  have hmaxk : ∀ k, countCat photos k ≤ countCat photos c0 := by
    intro k
    by_cases h0 : countCat photos k = 0
    · omega
    · have hfk : findVal (categoryCounts photos) k = some (countCat photos k) := by
        rw [hfv k, if_neg h0]
      have hmem := findVal_some_mem hfk
      have hle := hamax (k, countCat photos k) hmem
      simp only at hle
      omega
  obtain ⟨l1, pf, l2, hsplit, hpfc, hl1ne⟩ := first_occurrence_split hc0occ
  refine ⟨⟨pf, ?_, by rw [hgc]; exact hpfc⟩, ?_, ?_⟩
  · rw [hsplit]
    exact List.mem_append_right _ (List.mem_cons_self _ _)
  · intro k
    rw [hgc]
    exact hmaxk k
  · refine ⟨l1, pf, l2, hsplit, by rw [hgc]; exact hpfc, ?_⟩
    intro q hq
    rw [hgc, ← hvcount]
    have hql1 : q.category ∈ firstOccs l1 :=
      (mem_occKeys l1 [] q.category).mpr (Or.inr ⟨q, hq, rfl⟩)
    have hsplitkeys : firstOccs photos = occKeys (pf :: l2) (firstOccs l1) := by
      rw [hsplit]
      simp [firstOccs, occKeys, List.foldl_append]
    obtain ⟨extra, hex, hexni⟩ := occKeys_append_extra (pf :: l2) (firstOccs l1)
    have hc0nl1 : c0 ∉ firstOccs l1 := by
      intro hmem
      rcases (mem_occKeys l1 [] c0).mp hmem with h | ⟨q2, hq2, hq2c⟩
      · simp at h
      · exact hl1ne q2 hq2 hq2c
    have hPE : firstOccs photos = firstOccs l1 ++ extra := by
      rw [hsplitkeys, hex]
    have hK12 : firstOccs photos = cl1.map Prod.fst ++ c0 :: cl2.map Prod.fst := by
      rw [← hkeys, hcsplit]
      simp
    have heq2 : firstOccs l1 ++ extra = cl1.map Prod.fst ++ c0 :: cl2.map Prod.fst := by
      rw [← hPE]
      exact hK12
    have hqK1 : q.category ∈ cl1.map Prod.fst :=
      mem_left_of_before (firstOccs l1) heq2 hc0nl1 hql1
    obtain ⟨y, hy, hyfst⟩ := List.mem_map.mp hqK1
    have hylt : y.2 < v := hcl1 y hy
    have hymem : (y.1, y.2) ∈ categoryCounts photos := by
      rw [hcsplit]
      exact List.mem_append_left _ (by simpa using hy)
    have hyval : y.2 = countCat photos y.1 := by
      have hfy := mem_findVal_of_nodup hnd hymem
      rw [hfv y.1] at hfy
      by_cases h0 : countCat photos y.1 = 0
      · rw [if_pos h0] at hfy; cases hfy
      · rw [if_neg h0] at hfy
        exact (Option.some.inj hfy).symm
    rw [← hyfst, ← hyval]
    exact hylt

/-- Witness for the amended C7 on a tied group (2 travel, 2 pets;
travel first-encountered; neither category numeric). -/
theorem mostCommonCategory_spec_witness :
    (∃ p ∈ tieGroup, p.category = getMostCommonCategory tieGroup) ∧
    (∀ k, countCat tieGroup k ≤ countCat tieGroup (getMostCommonCategory tieGroup)) ∧
    (∃ l1 p l2, tieGroup = l1 ++ p :: l2 ∧ p.category = getMostCommonCategory tieGroup ∧
      ∀ q ∈ l1, countCat tieGroup q.category <
        countCat tieGroup (getMostCommonCategory tieGroup)) :=
  mostCommonCategory_spec tieGroup (by decide) (by decide) (by decide)

end PhotoApp
